import Mathlib

/-!
Verification of the hybrid retrieval core of the `ragmilo` repository.

The embedding below translates `backend/rag_core.py` (tokenisation aside),
the index-build robustness logic of `backend/enhanced_ingest.py`
(`build_faiss_index_from_db`), and the artifact-existence checks of
`HybridRetriever.__init__`.

Modelling conventions:
* Python floats are modelled as rationals (`ℚ`); the verified claims concern
  exact arithmetic identities, orderings and set/counting properties that
  the float computations realise the same way.
* Python dicts are modelled as association lists with insertion-order
  semantics (`dictInsert` overwrites in place, otherwise appends), matching
  CPython's ordered dicts.  `set(a) | set(b)` iteration order is unspecified
  in Python; it is modelled as "keys of `a` then new keys of `b`" — none of
  the verified claims depend on that order.
* External libraries (faiss, ollama, rank_bm25, numpy, hashlib) are not part
  of the repository: their outputs (dense search results, BM25 score arrays)
  are inputs of the model, and `hashlib.sha1` is replaced by a stand-in
  deterministic total hash; no claim depends on digest values.
-/

set_option allowUnsafeReducibility true in
attribute [semireducible] Rat.mul Rat.add Rat.sub Rat.inv Rat.div

namespace Ragmilo

/-- A Python value as it occurs in chunk metadata / filters: a string, an
integer, a float (modelled as `ℚ`) or `None`. -/
inductive Val where
  | vStr (s : String)
  | vInt (n : Int)
  | vRat (q : ℚ)
  | vNone
  deriving DecidableEq, Repr

/-- Python `==` on metadata values: structural on same-kind values, with the
numeric cross-kind equality `5 == 5.0`; strings never equal numbers. -/
def pyEq : Val → Val → Bool
  | .vStr a, .vStr b => a = b
  | .vInt a, .vInt b => a = b
  | .vRat a, .vRat b => a = b
  | .vInt a, .vRat b => (a : ℚ) = b
  | .vRat a, .vInt b => a = (b : ℚ)
  | .vNone, .vNone => true
  | _, _ => false

/-- Python truthiness of a metadata value (`None`, `''`, `0`, `0.0` are
falsy). -/
def pyTruthy : Val → Bool
  | .vStr s => s ≠ ""
  | .vInt n => n ≠ 0
  | .vRat q => q ≠ 0
  | .vNone => false

/-- Python `str()` / f-string rendering of a metadata value, used when the
code interpolates identifier fields into `chunk_id`. -/
def pyStr : Val → String
  | .vStr s => s
  | .vInt n => toString n
  | .vRat q => toString q
  | .vNone => "None"

/-- Python `int(s)` on a string: optional surrounding whitespace, an optional
sign, then decimal digits; anything else raises `ValueError` (modelled as
`none`).  (Underscore separators and non-ASCII digits accepted by CPython are
not exercised by any claim.) -/
def pyParseInt (s : String) : Option Int :=
  let t := (s.data.dropWhile Char.isWhitespace).reverse.dropWhile Char.isWhitespace |>.reverse
  let (sign, digits) : Int × List Char :=
    match t with
    | '-' :: rest => (-1, rest)
    | '+' :: rest => (1, rest)
    | rest => (1, rest)
  if digits.length > 0 ∧ digits.all Char.isDigit then
    some (sign * (digits.foldl (fun n c => n * 10 + (c.toNat - 48)) 0 : Nat))
  else none

/-- Association-list lookup, i.e. Python `d.get(k)` returning `None` as
`Option.none` when the key is absent. -/
def dictGet {κ α : Type} [DecidableEq κ] : List (κ × α) → κ → Option α
  | [], _ => none
  | p :: rest, k => if p.1 = k then some p.2 else dictGet rest k

/-- Python `d[k] = v` on an insertion-ordered dict: overwrite in place when
the key is present, append otherwise. -/
def dictInsert {κ α : Type} [DecidableEq κ] (m : List (κ × α)) (k : κ) (v : α) :
    List (κ × α) :=
  if m.any (fun p => p.1 = k) then
    m.map (fun p => if p.1 = k then (k, v) else p)
  else m ++ [(k, v)]

/-- The key list of a dict (Python `d.keys()`, in insertion order). -/
def dictKeys {κ α : Type} (m : List (κ × α)) : List κ := m.map Prod.fst

/-- `rag_core.metadata_matches`: conjunctive exact equality over the filter's
keys only (an empty / absent filter imposes no constraint; an absent metadata
key compares as `None`). -/
def metadata_matches (meta : List (String × Val)) (filters : List (String × Val)) :
    Bool :=
  filters.all fun p => pyEq ((dictGet meta p.1).getD Val.vNone) p.2

/-- Minimum of a score dict's values (Python `min(scores.values())`; `0` on
the empty dict, which the caller guards against). -/
def minVal (m : List (Nat × ℚ)) : ℚ :=
  match m with
  | [] => 0
  | p :: _ => (m.map Prod.snd).foldl min p.2

/-- Maximum of a score dict's values (Python `max(scores.values())`). -/
def maxVal (m : List (Nat × ℚ)) : ℚ :=
  match m with
  | [] => 0
  | p :: _ => (m.map Prod.snd).foldl max p.2

/-- `rag_core.normalize_scores`: min–max normalisation of a score dict, with
the uniform-score dict mapped to all-`1.0` and the empty dict to the empty
dict.  `scale` mirrors `max(adjusted.values()) or 1.0`. -/
def normalize_scores (scores : List (Nat × ℚ)) : List (Nat × ℚ) :=
  match scores with
  | [] => []
  | _ :: _ =>
    if maxVal scores = minVal scores then scores.map (fun p => (p.1, 1))
    else
      let adjusted := scores.map (fun p => (p.1, p.2 - minVal scores))
      let scale0 := maxVal adjusted
      let scale := if scale0 = 0 then 1 else scale0
      adjusted.map (fun p => (p.1, p.2 / scale))

/-- Stand-in for `hashlib.sha1(chunk.encode()).hexdigest()[:8]`: an external
library hash, modelled as a deterministic total function of the text (no
claim depends on the digest's value, only on determinism and totality). -/
def sha1Hex8 (chunk : String) : String :=
  let h := chunk.data.foldl (fun h c => (h * 31 + c.toNat) % 4294967296) 7
  Nat.repr h

/-- `rag_core._ensure_identifiers`, lines 55-60: resolve `doc_id`.  When the
stored `doc_id` is falsy, synthesise `"{fallback}-{hash}"` from `matiere`
(or the literal `"doc"`) and the chunk-text hash, and store it; returns the
resolved value together with the (possibly updated) mapping. -/
def resolveDocId (meta : List (String × Val)) (chunk : String) :
    Val × List (String × Val) :=
  let docId0 := (dictGet meta "doc_id").getD Val.vNone
  if pyTruthy docId0 then (docId0, meta)
  else
    let fallback := (dictGet meta "matiere").getD Val.vNone
    let fallback := if pyTruthy fallback then fallback else Val.vStr "doc"
    let newId := Val.vStr (pyStr fallback ++ "-" ++ sha1Hex8 chunk)
    (newId, dictInsert meta "doc_id" newId)

/-- `rag_core._ensure_identifiers`, lines 68-75: coerce the stored
`chunk_index` — `int()` a string (unparsable becomes `None`), then default
`None` to `0`; any other value passes through unchanged. -/
def resolveChunkIndex (ci0 : Val) : Val :=
  let ci1 :=
    match ci0 with
    | Val.vStr s =>
      match pyParseInt s with
      | some n => Val.vInt n
      | none => Val.vNone
    | v => v
  if ci1 = Val.vNone then Val.vInt 0 else ci1

/-- `rag_core._ensure_identifiers`: returns a copy of the metadata with
`doc_id`, `doc_label`, `page`, `chunk_index` and `chunk_id` filled in,
synthesising missing values exactly as the source does (the `doc_id` and
`chunk_index` steps are split out above). -/
def ensure_identifiers (metadata : List (String × Val)) (chunk : String) :
    List (String × Val) :=
  let docId := (resolveDocId metadata chunk).1
  let meta := (resolveDocId metadata chunk).2
  let docLabel0 := (dictGet meta "doc_label").getD Val.vNone
  let docLabel := if pyTruthy docLabel0 then docLabel0 else docId
  let meta := dictInsert meta "doc_label" docLabel
  let page := (dictGet meta "page").getD (Val.vStr "?")
  let meta := dictInsert meta "page" page
  let chunkIndex := resolveChunkIndex ((dictGet meta "chunk_index").getD Val.vNone)
  let meta := dictInsert meta "chunk_index" chunkIndex
  let chunkId0 := (dictGet meta "chunk_id").getD Val.vNone
  if pyTruthy chunkId0 then meta
  else
    dictInsert meta "chunk_id"
      (Val.vStr (pyStr docId ++ ":" ++ pyStr page ++ ":" ++ pyStr chunkIndex))

/-- A chunk record as `HybridRetriever._load_documents` materialises it (the
stored embedding plays no role in `retrieve` and is omitted). -/
structure Chunk where
  text : String
  metadata : List (String × Val)
  deriving DecidableEq, Repr, Inhabited

/-- Default chunk used by total list indexing; `HybridRetriever.retrieve`
only indexes positions produced by the dense/lexical indexes, which are in
range per those structures' contracts. -/
def defaultChunk : Chunk := ⟨"", []⟩

/-- The inputs of one `HybridRetriever.retrieve` call.  The external calls
(ollama embedding, `faiss_index.search`, `bm25.get_scores`) are abstracted as
inputs: `denseResults` is `zip(distances[0], indices[0])` from the dense
search (already clamped to `vector_k` entries by the faiss call) and
`bm25Scores` is the per-position raw BM25 score array.  `filt = []` models
`metadata_filter=None`. -/
structure RetrieveIn where
  docs : List Chunk
  denseResults : List (ℚ × Int)
  bm25Scores : List ℚ
  filt : List (String × Val)
  top_n : Nat
  bm25_k : Nat
  alpha : ℚ

/-- The raw vector score map (`vector_scores_raw` loop of
`HybridRetriever.retrieve`): skip faiss `-1` padding positions, apply the
metadata filter, insert `idx ↦ score`. -/
def vectorScoresRaw (q : RetrieveIn) : List (Nat × ℚ) :=
  q.denseResults.foldl
    (fun m p =>
      if p.2 < 0 then m
      else
        let idx := p.2.toNat
        let meta := (q.docs.getD idx defaultChunk).metadata
        if q.filt ≠ [] ∧ metadata_matches meta q.filt = false then m
        else dictInsert m idx p.1)
    []

/-- Insert `x` into a sorted list, before the first element `y` with
`le x y` (stable insertion). -/
def insertDesc {α : Type} (le : α → α → Bool) (x : α) : List α → List α
  | [] => [x]
  | y :: t => if le x y then x :: y :: t else y :: insertDesc le x t

/-- Stable sort by the Boolean comparison `le` (insertion sort).  Python's
`list.sort` is stable, and a stable sort's output — the unique permutation
that is `le`-sorted with `le`-ties kept in input order — does not depend on
the algorithm, so stable insertion sort models `list.sort(key=...,
reverse=True)` and `np.argpartition` selections exactly. -/
def stableSort {α : Type} (le : α → α → Bool) : List α → List α
  | [] => []
  | x :: t => insertDesc le x (stableSort le t)

/-- `np.argpartition(bm25_array, -k)[-k:]`: the indices of the `k` largest
scores.  `argpartition` leaves the order among the selected `k` unspecified;
it is modelled as the first `k` of a stable descending sort, one valid
outcome — no claim depends on the order within the selection. -/
def topKIndices (scores : List ℚ) (k : Nat) : List Nat :=
  (stableSort (fun i j => decide (scores.getD j 0 ≤ scores.getD i 0))
    (List.range scores.length)).take k

/-- The raw lexical score map (`lexical_scores_raw` loop): take the top
`min(bm25_k, len)` positions, discard scores `≤ 0`, apply the metadata
filter. -/
def lexicalScoresRaw (q : RetrieveIn) : List (Nat × ℚ) :=
  let k := min q.bm25_k q.bm25Scores.length
  if 0 < k then
    (topKIndices q.bm25Scores k).foldl
      (fun m idx =>
        let score := q.bm25Scores.getD idx 0
        if score ≤ 0 then m
        else
          let meta := (q.docs.getD idx defaultChunk).metadata
          if q.filt ≠ [] ∧ metadata_matches meta q.filt = false then m
          else dictInsert m idx score)
      []
  else []

/-- `norm_vector = normalize_scores(vector_scores_raw)`. -/
def normVector (q : RetrieveIn) : List (Nat × ℚ) :=
  normalize_scores (vectorScoresRaw q)

/-- `norm_lexical = normalize_scores(lexical_scores_raw)`. -/
def normLexical (q : RetrieveIn) : List (Nat × ℚ) :=
  normalize_scores (lexicalScoresRaw q)

/-- `candidates = set(norm_vector) | set(norm_lexical)` with the dead-code
fallback to the raw vector keys when the union is empty.  Set iteration
order is unspecified in Python; modelled as vector keys followed by the new
lexical keys (no verified claim depends on this order). -/
def candidatesOf (q : RetrieveIn) : List Nat :=
  let u := dictKeys (normVector q) ++
    (dictKeys (normLexical q)).filter (fun k => decide (k ∉ dictKeys (normVector q)))
  if u = [] ∧ vectorScoresRaw q ≠ [] then dictKeys (vectorScoresRaw q) else u

/-- `combined = alpha * norm_vector.get(idx, 0.0)
             + (1 - alpha) * norm_lexical.get(idx, 0.0)`. -/
def combinedScore (q : RetrieveIn) (idx : Nat) : ℚ :=
  q.alpha * ((dictGet (normVector q) idx).getD 0) +
    (1 - q.alpha) * ((dictGet (normLexical q) idx).getD 0)

/-- The metadata attached to a result row: a copy of the chunk metadata with
`vector_score`, `lexical_score` and the given `combined_score` set, passed
through the identifier normaliser. -/
def enrichedMeta (q : RetrieveIn) (idx : Nat) (combined : ℚ) :
    List (String × Val) :=
  let meta := (q.docs.getD idx defaultChunk).metadata
  let meta := dictInsert meta "vector_score"
    (Val.vRat ((dictGet (vectorScoresRaw q) idx).getD 0))
  let meta := dictInsert meta "lexical_score"
    (Val.vRat ((dictGet (lexicalScoresRaw q) idx).getD 0))
  let meta := dictInsert meta "combined_score" (Val.vRat combined)
  ensure_identifiers meta (q.docs.getD idx defaultChunk).text

/-- The `results` list after scoring and the stable descending sort
(`results.sort(key=..., reverse=True)`); each row keeps its chunk position
alongside the score and enriched metadata so that properties can speak about
positions (the source row is `(documents[idx]['text'], combined, meta)`). -/
def fusedSorted (q : RetrieveIn) : List (Nat × ℚ × List (String × Val)) :=
  stableSort (fun a b => decide (b.2.1 ≤ a.2.1))
    ((candidatesOf q).map
      (fun idx => (idx, combinedScore q idx, enrichedMeta q idx (combinedScore q idx))))

/-- The backfill loop: positions of the raw vector map not among the
candidates, appended (scored by their normalised vector score alone) until
`top_n` rows exist or the pool is exhausted. -/
def backfillExtras (q : RetrieveIn) : List (Nat × ℚ × List (String × Val)) :=
  let extraIndices := (dictKeys (vectorScoresRaw q)).filter
    (fun idx => decide (idx ∉ candidatesOf q))
  (extraIndices.take (q.top_n - (fusedSorted q).length)).map
    (fun idx =>
      (idx, (dictGet (normVector q) idx).getD 0,
        enrichedMeta q idx ((dictGet (normVector q) idx).getD 0)))

/-- `HybridRetriever.retrieve` (position-carrying form): sort, backfill when
short, return the first `top_n` rows. -/
def retrieveIndexed (q : RetrieveIn) : List (Nat × ℚ × List (String × Val)) :=
  let sorted := fusedSorted q
  let final := if sorted.length < q.top_n then sorted ++ backfillExtras q else sorted
  final.take q.top_n

/-- `HybridRetriever.retrieve` as the caller sees it:
`(text, combined_score, metadata)` rows. -/
def retrieve (q : RetrieveIn) : List (String × ℚ × List (String × Val)) :=
  (retrieveIndexed q).map
    (fun e => ((q.docs.getD e.1 defaultChunk).text, e.2.1, e.2.2))

namespace EnhancedIngest

/-- One stored embedding as `build_faiss_index_from_db` receives it from the
database, tagged by the source encoding the code branches on:
* `missing` — stored `NULL` (`raw_emb is None`);
* `floats v` — a list/tuple of floats (`np.array` gives a 1-D array);
* `nonOneD rows cols` — a sequence whose `np.array` conversion is not 1-D
  (nested lists; a ragged nesting raises instead, landing in the same
  bad-count branch);
* `buffer d` — raw bytes; `np.frombuffer(..., float32)` decodes to the 1-D
  vector `v` when `d = some v`, and raises when the byte length is not a
  multiple of 4 (`d = none`);
* `jsonStr p` — a string; `json.loads` yields the list `v` when
  `p = some v`, and raises when the string is not valid JSON (`p = none`);
* `other c` — any other stored type, hitting the brute-force `np.array`
  fallback, which yields a 1-D vector or raises. -/
inductive RawEmb where
  | missing
  | floats (v : List ℚ)
  | nonOneD (rows cols : Nat)
  | buffer (decoded : Option (List ℚ))
  | jsonStr (parsed : Option (List ℚ))
  | other (conv : Option (List ℚ))
  deriving DecidableEq, Repr

/-- One iteration of the conversion loop of `build_faiss_index_from_db`: the
accumulator is `(embeddings, bad_count)`.  A converted 1-D non-empty array is
kept; missing embeddings, conversion exceptions and empty/non-1-D arrays
increment `bad_count`; a string whose JSON parse fails is skipped by a bare
`continue` WITHOUT incrementing `bad_count` (the nested `except` at
`enhanced_ingest.py:192`). -/
def convertStep (acc : List (List ℚ) × Nat) (e : RawEmb) : List (List ℚ) × Nat :=
  match e with
  | .missing => (acc.1, acc.2 + 1)
  | .floats v => if v.length = 0 then (acc.1, acc.2 + 1) else (acc.1 ++ [v], acc.2)
  | .nonOneD _ _ => (acc.1, acc.2 + 1)
  | .buffer none => (acc.1, acc.2 + 1)
  | .buffer (some v) =>
    if v.length = 0 then (acc.1, acc.2 + 1) else (acc.1 ++ [v], acc.2)
  | .jsonStr none => acc
  | .jsonStr (some v) =>
    if v.length = 0 then (acc.1, acc.2 + 1) else (acc.1 ++ [v], acc.2)
  | .other none => (acc.1, acc.2 + 1)
  | .other (some v) =>
    if v.length = 0 then (acc.1, acc.2 + 1) else (acc.1 ++ [v], acc.2)

/-- First-occurrence deduplication (the key order of `collections.Counter`,
which is insertion order). -/
def firstDedup (l : List Nat) : List Nat :=
  l.foldl (fun acc x => if x ∈ acc then acc else acc ++ [x]) []

/-- `Counter(dims).most_common(1)[0][0]`: the most frequent dimensionality,
ties resolved by first occurrence. -/
def mostCommonDim (dims : List Nat) : Nat :=
  (firstDedup dims).foldl
    (fun best d => if dims.count best < dims.count d then d else best)
    (dims.headD 0)

/-- `build_faiss_index_from_db`, reduced to what it persists: `none` when the
build aborts without writing an index, otherwise the list of vectors the
index is built over, paired with the reported `bad_count`.  (The final
`faiss.normalize_L2` and `IndexFlatIP` construction keep the vector count
unchanged and are outside the repository; the index is modelled as the
stacked matrix rows.) -/
def build_faiss_index_from_db (chunks : List RawEmb) :
    Option (List (List ℚ)) × Nat :=
  if chunks = [] then (none, 0)
  else
    let conv := chunks.foldl convertStep ([], 0)
    let embeddings := conv.1
    let badCount := conv.2
    if embeddings = [] then (none, badCount)
    else
      let dims := embeddings.map List.length
      if 1 < (firstDedup dims).length then
        let mcd := mostCommonDim dims
        let filtered := embeddings.filter (fun e => e.length = mcd)
        if filtered = [] then (none, badCount) else (some filtered, badCount)
      else (some embeddings, badCount)

end EnhancedIngest

namespace Load

/-- The file-system facts `HybridRetriever.__init__` consults: for each of
the four artifact paths, whether the file exists, plus whether the unpickled
BM25 payload contains a `bm25` object (`_load_bm25`'s validity check).  File
contents are otherwise treated as well-formed — the claim under scrutiny
concerns existence checks. -/
structure LoadEnv where
  vectorDbPath : String
  faissPath : String
  bm25Path : String
  metaPath : String
  vectorDbExists : Bool
  faissExists : Bool
  bm25Exists : Bool
  metaExists : Bool
  bm25HasPayload : Bool

/-- A failed load: either a `SystemExit` naming a missing artifact path, or
the invalid-pickle `SystemExit` of `_load_bm25`. -/
inductive LoadError where
  | missingArtifact (path : String)
  | invalidBm25
  deriving DecidableEq, Repr

/-- `HybridRetriever.__init__`: `_load_documents`, `_load_faiss_index` and
`_load_bm25` each raise `SystemExit` naming the missing path when their file
is absent, in that order; `_load_meta` returns `{}` when `meta_path` does not
exist (`rag_core.py:154-158`) and never fails on absence.  A successful load
is reduced to `()` — the loaded structures' contents play no role in the
claim. -/
def hybridRetrieverInit (env : LoadEnv) : Except LoadError Unit :=
  if env.vectorDbExists = false then .error (.missingArtifact env.vectorDbPath)
  else if env.faissExists = false then .error (.missingArtifact env.faissPath)
  else if env.bm25Exists = false then .error (.missingArtifact env.bm25Path)
  else if env.bm25HasPayload = false then .error .invalidBm25
  else .ok ()

/-- The paths among the three artifacts `__init__` actually requires that are
absent, in check order (a spec-side helper for stating the amended claim). -/
def missingRequiredPaths (env : LoadEnv) : List String :=
  (if env.vectorDbExists = false then [env.vectorDbPath] else []) ++
    (if env.faissExists = false then [env.faissPath] else []) ++
      (if env.bm25Exists = false then [env.bm25Path] else [])

end Load

/-- The per-value min–max normalisation map realised by `normalize_scores`
(specification-side closed form used to state lemmas about it). -/
def normFun (m : List (Nat × ℚ)) (v : ℚ) : ℚ :=
  if maxVal m = minVal m then 1 else (v - minVal m) / (maxVal m - minVal m)

/-- Whether the stored `chunk_index` is a shape `_ensure_identifiers`
integer-coerces: absent, `None`, an integer, or a string.  (A float — or any
other non-string value — is passed through unchanged by the source.) -/
def ciShapeOk (metadata : List (String × Val)) : Bool :=
  match (dictGet metadata "chunk_index").getD Val.vNone with
  | Val.vStr _ => true
  | Val.vInt _ => true
  | Val.vNone => true
  | Val.vRat _ => false

/-- Whether a metadata value is a Python integer. -/
def isIntVal : Val → Bool
  | Val.vInt _ => true
  | _ => false

/-- The spec's worked scenario (§8): corpus of 3 chunks, vector scores
`{0:0.9, 1:0.5, 2:0.1}`, lexical scores `{0:0.1, 1:0.8}` (position 2 scores
`0` and is discarded by the positive-score rule), `alpha=0.5`, `top_n=2`. -/
def scenario1 : RetrieveIn :=
  { docs := [⟨"t0", []⟩, ⟨"t1", []⟩, ⟨"t2", []⟩]
    denseResults := [(9/10, 0), (1/2, 1), (1/10, 2)]
    bm25Scores := [1/10, 4/5, 0]
    filt := []
    top_n := 2
    bm25_k := 40
    alpha := 1/2 }

/-- A retrieve call whose single chunk stores `chunk_index` as the string
`"5"` and whose filter asks for exactly that string: the chunk passes the
filter, but identifier synthesis rewrites `chunk_index` to the integer `5`
in the returned metadata. -/
def filterScenario : RetrieveIn :=
  { docs := [⟨"t", [("chunk_index", Val.vStr "5")]⟩]
    denseResults := [(1, 0)]
    bm25Scores := []
    filt := [("chunk_index", Val.vStr "5")]
    top_n := 3
    bm25_k := 40
    alpha := 13/20 }

/-! ### Dictionary lemmas -/

lemma any_key_iff {κ α : Type} [DecidableEq κ] (m : List (κ × α)) (k : κ) :
    m.any (fun p => p.1 = k) = true ↔ k ∈ dictKeys m := by
  simp only [List.any_eq_true, decide_eq_true_eq, dictKeys, List.mem_map]

lemma dictGet_append_single_self {κ α : Type} [DecidableEq κ]
    (m : List (κ × α)) (k : κ) (v : α) (h : k ∉ dictKeys m) :
    dictGet (m ++ [(k, v)]) k = some v := by
  induction m with
  | nil => simp [dictGet]
  | cons a t ih =>
    simp only [dictKeys, List.map_cons, List.mem_cons, not_or] at h
    have ha : ¬ a.1 = k := fun hh => h.1 hh.symm
    rw [List.cons_append, dictGet, if_neg ha]
    exact ih h.2

lemma dictGet_append_single_other {κ α : Type} [DecidableEq κ]
    (m : List (κ × α)) (k k' : κ) (v : α) (h : k' ≠ k) :
    dictGet (m ++ [(k, v)]) k' = dictGet m k' := by
  induction m with
  | nil =>
    have : ¬ (k, v).1 = k' := fun hh => h hh.symm
    simp [dictGet, this]
  | cons a t ih =>
    by_cases ha : a.1 = k' <;> simp [dictGet, ha, ih]

lemma dictGet_overwrite {κ α : Type} [DecidableEq κ]
    (m : List (κ × α)) (k k' : κ) (v : α) :
    dictGet (m.map (fun p => if p.1 = k then (k, v) else p)) k' =
      if k' = k then (if k ∈ dictKeys m then some v else none)
      else dictGet m k' := by
  induction m with
  | nil => simp [dictGet, dictKeys]
  | cons a t ih =>
    rw [List.map_cons, dictGet]
    by_cases hak : a.1 = k
    · rw [if_pos hak]
      by_cases hkk : k' = k
      · subst hkk
        have hmem : k' ∈ dictKeys (a :: t) := by
          simp [dictKeys, List.mem_cons, hak]
        simp [hmem]
      · have h1 : ¬ (k, v).1 = k' := fun hh => hkk hh.symm
        have h2 : ¬ a.1 = k' := fun hh => hkk (hh ▸ hak ▸ rfl)
        rw [if_neg h1, ih, if_neg hkk, if_neg hkk, dictGet, if_neg h2]
    · rw [if_neg hak]
      by_cases hak' : a.1 = k'
      · have hkk : ¬ k' = k := fun hh => hak (hh ▸ hak')
        rw [if_pos hak', if_neg hkk, dictGet, if_pos hak']
      · rw [if_neg hak', ih, dictGet, if_neg hak']
        by_cases hkk : k' = k
        · subst hkk
          have hmm : (k' ∈ dictKeys (a :: t)) = (k' ∈ dictKeys t) := by
            simp only [dictKeys, List.map_cons, List.mem_cons]
            refine propext ⟨?_, Or.inr⟩
            rintro (hh | hh)
            · exact absurd hh.symm hak
            · exact hh
          simp only [if_pos rfl, hmm]
        · rw [if_neg hkk, if_neg hkk]

lemma dictGet_insert_self {κ α : Type} [DecidableEq κ]
    (m : List (κ × α)) (k : κ) (v : α) :
    dictGet (dictInsert m k v) k = some v := by
  unfold dictInsert
  split
  case isTrue h =>
    rw [dictGet_overwrite]
    simp [(any_key_iff m k).mp h]
  case isFalse h =>
    exact dictGet_append_single_self m k v (fun hm => h ((any_key_iff m k).mpr hm))

lemma dictGet_insert_other {κ α : Type} [DecidableEq κ]
    (m : List (κ × α)) (k k' : κ) (v : α) (h : k' ≠ k) :
    dictGet (dictInsert m k v) k' = dictGet m k' := by
  unfold dictInsert
  split
  · rw [dictGet_overwrite, if_neg h]
  · exact dictGet_append_single_other m k k' v h

lemma dictKeys_insert {κ α : Type} [DecidableEq κ]
    (m : List (κ × α)) (k : κ) (v : α) :
    dictKeys (dictInsert m k v) =
      if k ∈ dictKeys m then dictKeys m else dictKeys m ++ [k] := by
  unfold dictInsert
  split
  case isTrue h =>
    rw [if_pos ((any_key_iff m k).mp h)]
    simp only [dictKeys, List.map_map]
    refine List.map_congr_left ?_
    intro p _
    by_cases hp : p.1 = k <;> simp [hp, Function.comp]
  case isFalse h =>
    rw [if_neg (fun hm => h ((any_key_iff m k).mpr hm))]
    simp [dictKeys]

lemma nodup_dictKeys_insert {κ α : Type} [DecidableEq κ]
    {m : List (κ × α)} (k : κ) (v : α) (h : (dictKeys m).Nodup) :
    (dictKeys (dictInsert m k v)).Nodup := by
  rw [dictKeys_insert]
  split
  · exact h
  case isFalse hk => simp [List.nodup_append, h, hk]

lemma mem_dictInsert {κ α : Type} [DecidableEq κ]
    {m : List (κ × α)} {k : κ} {v : α} {p : κ × α}
    (h : p ∈ dictInsert m k v) : p ∈ m ∨ p = (k, v) := by
  unfold dictInsert at h
  split at h
  · obtain ⟨a, ha, hfa⟩ := List.mem_map.mp h
    by_cases hak : a.1 = k
    · right
      rw [if_pos hak] at hfa
      exact hfa.symm
    · left
      rw [if_neg hak] at hfa
      exact hfa ▸ ha
  · rcases List.mem_append.mp h with hm | hm
    · exact Or.inl hm
    · exact Or.inr (List.mem_singleton.mp hm)

lemma dictGet_mem {κ α : Type} [DecidableEq κ]
    {m : List (κ × α)} {k : κ} {v : α} (h : dictGet m k = some v) : (k, v) ∈ m := by
  induction m with
  | nil => simp [dictGet] at h
  | cons a t ih =>
    rw [dictGet] at h
    split at h
    case isTrue ha =>
      obtain rfl : a.2 = v := Option.some.inj h
      have hh : (k, a.2) = a := by
        rw [← ha]
      rw [hh]
      exact List.mem_cons_self a t
    case isFalse ha => exact List.mem_cons_of_mem _ (ih h)

lemma dictGet_isSome_of_mem_keys {κ α : Type} [DecidableEq κ]
    {m : List (κ × α)} {k : κ} (h : k ∈ dictKeys m) : (dictGet m k).isSome := by
  induction m with
  | nil => simp [dictKeys] at h
  | cons a t ih =>
    rw [dictGet]
    split
    · simp
    case isFalse ha =>
      rcases List.mem_cons.mp h with hk | hk
      · exact absurd hk.symm ha
      · exact ih hk

lemma dictGet_map_value {κ α β : Type} [DecidableEq κ]
    (f : α → β) (m : List (κ × α)) (k : κ) :
    dictGet (m.map (fun p => (p.1, f p.2))) k = (dictGet m k).map f := by
  induction m with
  | nil => rfl
  | cons a t ih => by_cases ha : a.1 = k <;> simp [dictGet, ha, ih]

lemma length_dictInsert_le {κ α : Type} [DecidableEq κ]
    (m : List (κ × α)) (k : κ) (v : α) :
    (dictInsert m k v).length ≤ m.length + 1 := by
  unfold dictInsert
  split <;> simp

lemma foldl_preserve {α β : Type} (P : α → Prop) (step : α → β → α)
    (hstep : ∀ a b, P a → P (step a b)) :
    ∀ (l : List β) (a : α), P a → P (l.foldl step a)
  | [], _, h => h
  | b :: t, a, h => foldl_preserve P step hstep t (step a b) (hstep a b h)

lemma foldl_length_le {α β : Type} (step : List α → β → List α)
    (hstep : ∀ m b, (step m b).length ≤ m.length + 1) :
    ∀ (l : List β) (m : List α), (l.foldl step m).length ≤ m.length + l.length
  | [], m => by simp
  | b :: t, m => by
    calc (t.foldl step (step m b)).length ≤ (step m b).length + t.length :=
          foldl_length_le step hstep t (step m b)
      _ ≤ m.length + 1 + t.length := by
          exact Nat.add_le_add_right (hstep m b) t.length
      _ = m.length + (b :: t).length := by simp [Nat.add_assoc, Nat.add_comm 1]

/-! ### Min/max and normalisation lemmas -/

lemma foldl_min_le_init {α : Type} [LinearOrder α] :
    ∀ (l : List α) (a : α), l.foldl min a ≤ a
  | [], a => le_refl a
  | x :: t, a => le_trans (foldl_min_le_init t (min a x)) (min_le_left a x)

lemma foldl_min_le_mem {α : Type} [LinearOrder α] :
    ∀ (l : List α) (a x : α), x ∈ l → l.foldl min a ≤ x
  | x :: t, a, y, hy => by
    rcases List.mem_cons.mp hy with rfl | hy
    · exact le_trans (foldl_min_le_init t (min a y)) (min_le_right a y)
    · exact foldl_min_le_mem t (min a x) y hy

lemma le_foldl_max_init {α : Type} [LinearOrder α] :
    ∀ (l : List α) (a : α), a ≤ l.foldl max a
  | [], a => le_refl a
  | x :: t, a => le_trans (le_max_left a x) (le_foldl_max_init t (max a x))

lemma le_foldl_max_mem {α : Type} [LinearOrder α] :
    ∀ (l : List α) (a x : α), x ∈ l → x ≤ l.foldl max a
  | x :: t, a, y, hy => by
    rcases List.mem_cons.mp hy with rfl | hy
    · exact le_trans (le_max_right a y) (le_foldl_max_init t (max a y))
    · exact le_foldl_max_mem t (max a x) y hy

lemma minVal_le_of_mem {m : List (Nat × ℚ)} {k : Nat} {v : ℚ}
    (h : (k, v) ∈ m) : minVal m ≤ v := by
  cases m with
  | nil => cases h
  | cons p t =>
    exact foldl_min_le_mem _ _ _ (List.mem_map.mpr ⟨(k, v), h, rfl⟩)

lemma le_maxVal_of_mem {m : List (Nat × ℚ)} {k : Nat} {v : ℚ}
    (h : (k, v) ∈ m) : v ≤ maxVal m := by
  cases m with
  | nil => cases h
  | cons p t =>
    exact le_foldl_max_mem _ _ _ (List.mem_map.mpr ⟨(k, v), h, rfl⟩)

lemma foldl_max_sub (c : ℚ) :
    ∀ (l : List ℚ) (a : ℚ),
      (l.map (fun x => x - c)).foldl max (a - c) = l.foldl max a - c
  | [], _ => rfl
  | x :: t, a => by
    rw [List.map_cons, List.foldl_cons, List.foldl_cons, max_sub_sub_right,
      foldl_max_sub c t (max a x)]

lemma maxVal_shift (m : List (Nat × ℚ)) (c : ℚ) (h : m ≠ []) :
    maxVal (m.map (fun p => (p.1, p.2 - c))) = maxVal m - c := by
  cases m with
  | nil => exact absurd rfl h
  | cons p t =>
    have h1 : (((p :: t).map fun q : Nat × ℚ => (q.1, q.2 - c)).map Prod.snd) =
        ((p :: t).map Prod.snd).map (fun x => x - c) := by
      rw [List.map_map, List.map_map]
      rfl
    show ((((p :: t).map fun q => (q.1, q.2 - c))).map Prod.snd).foldl max (p.2 - c) =
      ((p :: t).map Prod.snd).foldl max p.2 - c
    rw [h1]
    exact foldl_max_sub c _ _

lemma normalize_scores_eq_map (m : List (Nat × ℚ)) :
    normalize_scores m = m.map (fun p => (p.1, normFun m p.2)) := by
  cases m with
  | nil => rfl
  | cons p t =>
    rw [normalize_scores]
    by_cases h : maxVal (p :: t) = minVal (p :: t)
    · rw [if_pos h]
      refine List.map_congr_left ?_
      intro q _
      simp [normFun, h]
    · rw [if_neg h]
      dsimp only
      have hne : (p :: t : List (Nat × ℚ)) ≠ [] := List.cons_ne_nil p t
      have hs : maxVal ((p :: t).map fun q => (q.1, q.2 - minVal (p :: t))) =
          maxVal (p :: t) - minVal (p :: t) := maxVal_shift _ _ hne
      have hsub : maxVal (p :: t) - minVal (p :: t) ≠ 0 := sub_ne_zero.mpr h
      rw [hs, if_neg hsub, List.map_map]
      refine List.map_congr_left ?_
      intro q _
      simp [normFun, h, Function.comp]

lemma dictKeys_normalize (m : List (Nat × ℚ)) :
    dictKeys (normalize_scores m) = dictKeys m := by
  rw [normalize_scores_eq_map]
  simp [dictKeys, List.map_map, Function.comp]

lemma length_normalize (m : List (Nat × ℚ)) :
    (normalize_scores m).length = m.length := by
  rw [normalize_scores_eq_map, List.length_map]

lemma dictGet_normalize (m : List (Nat × ℚ)) (k : Nat) :
    dictGet (normalize_scores m) k = (dictGet m k).map (normFun m) := by
  rw [normalize_scores_eq_map, dictGet_map_value]

lemma minVal_lt_maxVal {m : List (Nat × ℚ)} (hne : m ≠ [])
    (h : maxVal m ≠ minVal m) : minVal m < maxVal m := by
  cases m with
  | nil => exact absurd rfl hne
  | cons p t =>
    have h1 : minVal (p :: t) ≤ p.2 := minVal_le_of_mem (List.mem_cons_self _ _)
    have h2 : p.2 ≤ maxVal (p :: t) := le_maxVal_of_mem (List.mem_cons_self _ _)
    exact lt_of_le_of_ne (le_trans h1 h2) (Ne.symm h)

lemma values_eq_of_uniform {m : List (Nat × ℚ)} {k : Nat} {v : ℚ}
    (h : maxVal m = minVal m) (hm : (k, v) ∈ m) : v = minVal m :=
  le_antisymm (h ▸ le_maxVal_of_mem hm) (minVal_le_of_mem hm)

lemma normFun_reflect {m : List (Nat × ℚ)} {ka kb : Nat} {va vb : ℚ}
    (ha : (ka, va) ∈ m) (hb : (kb, vb) ∈ m)
    (h : normFun m vb ≤ normFun m va) : vb ≤ va := by
  unfold normFun at h
  by_cases hc : maxVal m = minVal m
  · rw [values_eq_of_uniform hc ha, values_eq_of_uniform hc hb]
  · have hne : m ≠ [] := by
      intro hnil
      rw [hnil] at ha
      cases ha
    have hpos : 0 < maxVal m - minVal m :=
      sub_pos.mpr (minVal_lt_maxVal hne hc)
    rw [if_neg hc, if_neg hc, div_le_div_iff_of_pos_right hpos] at h
    exact (sub_le_sub_iff_right _).mp h

lemma normFun_nonneg {m : List (Nat × ℚ)} {k : Nat} {v : ℚ}
    (hm : (k, v) ∈ m) : 0 ≤ normFun m v := by
  unfold normFun
  by_cases hc : maxVal m = minVal m
  · rw [if_pos hc]
    exact zero_le_one
  · have hne : m ≠ [] := by
      intro hnil
      rw [hnil] at hm
      cases hm
    rw [if_neg hc]
    exact div_nonneg (sub_nonneg.mpr (minVal_le_of_mem hm))
      (le_of_lt (sub_pos.mpr (minVal_lt_maxVal hne hc)))

lemma normFun_le_one {m : List (Nat × ℚ)} {k : Nat} {v : ℚ}
    (hm : (k, v) ∈ m) : normFun m v ≤ 1 := by
  unfold normFun
  by_cases hc : maxVal m = minVal m
  · rw [if_pos hc]
  · have hne : m ≠ [] := by
      intro hnil
      rw [hnil] at hm
      cases hm
    have hpos : 0 < maxVal m - minVal m := sub_pos.mpr (minVal_lt_maxVal hne hc)
    rw [if_neg hc]
    rw [div_le_one hpos]
    exact sub_le_sub_right (le_maxVal_of_mem hm) _

lemma normFun_max_eq_one {m : List (Nat × ℚ)} (h : maxVal m ≠ minVal m) :
    normFun m (maxVal m) = 1 := by
  unfold normFun
  rw [if_neg h]
  exact div_self (sub_ne_zero.mpr h)

/-! ### Pipeline lemmas -/

lemma metadata_matches_nil (meta : List (String × Val)) :
    metadata_matches meta [] = true := rfl

lemma vectorScoresRaw_inv (q : RetrieveIn) :
    (dictKeys (vectorScoresRaw q)).Nodup ∧
      ∀ p ∈ vectorScoresRaw q,
        metadata_matches (q.docs.getD p.1 defaultChunk).metadata q.filt = true := by
  unfold vectorScoresRaw
  refine foldl_preserve
    (fun m => (dictKeys m).Nodup ∧
      ∀ p ∈ m, metadata_matches (q.docs.getD p.1 defaultChunk).metadata q.filt = true)
    _ ?_ _ _ ⟨List.nodup_nil, by intro p hp; cases hp⟩
  intro m b hm
  dsimp only
  split
  · exact hm
  · split
    · exact hm
    case isFalse hguard =>
      refine ⟨nodup_dictKeys_insert _ _ hm.1, ?_⟩
      intro p hp
      rcases mem_dictInsert hp with hpm | rfl
      · exact hm.2 p hpm
      · by_cases hf : q.filt = []
        · rw [hf]
          exact metadata_matches_nil _
        · rcases Bool.eq_false_or_eq_true
            (metadata_matches (q.docs.getD b.2.toNat defaultChunk).metadata q.filt) with hmm | hmm
          · exact hmm
          · exact absurd ⟨hf, hmm⟩ hguard

lemma lexicalScoresRaw_inv (q : RetrieveIn) :
    (dictKeys (lexicalScoresRaw q)).Nodup ∧
      ∀ p ∈ lexicalScoresRaw q,
        metadata_matches (q.docs.getD p.1 defaultChunk).metadata q.filt = true ∧
          0 < p.2 ∧ p.2 = q.bm25Scores.getD p.1 0 ∧
          p.1 ∈ topKIndices q.bm25Scores (min q.bm25_k q.bm25Scores.length) := by
  unfold lexicalScoresRaw
  dsimp only
  split
  case isFalse =>
    exact ⟨List.nodup_nil, by intro p hp; cases hp⟩
  case isTrue hk =>
    have main :
        ∀ (l : List Nat), (∀ i ∈ l, i ∈ topKIndices q.bm25Scores (min q.bm25_k q.bm25Scores.length)) →
        ∀ (m : List (Nat × ℚ)), (dictKeys m).Nodup →
        (∀ p ∈ m, metadata_matches (q.docs.getD p.1 defaultChunk).metadata q.filt = true ∧
          0 < p.2 ∧ p.2 = q.bm25Scores.getD p.1 0 ∧
          p.1 ∈ topKIndices q.bm25Scores (min q.bm25_k q.bm25Scores.length)) →
        (dictKeys (l.foldl (fun m idx =>
          if q.bm25Scores.getD idx 0 ≤ 0 then m
          else
            if q.filt ≠ [] ∧
                metadata_matches (q.docs.getD idx defaultChunk).metadata q.filt = false then m
            else dictInsert m idx (q.bm25Scores.getD idx 0)) m)).Nodup ∧
        ∀ p ∈ (l.foldl (fun m idx =>
          if q.bm25Scores.getD idx 0 ≤ 0 then m
          else
            if q.filt ≠ [] ∧
                metadata_matches (q.docs.getD idx defaultChunk).metadata q.filt = false then m
            else dictInsert m idx (q.bm25Scores.getD idx 0)) m),
          metadata_matches (q.docs.getD p.1 defaultChunk).metadata q.filt = true ∧
            0 < p.2 ∧ p.2 = q.bm25Scores.getD p.1 0 ∧
            p.1 ∈ topKIndices q.bm25Scores (min q.bm25_k q.bm25Scores.length) := by
      intro l
      induction l with
      | nil => intro _ m h1 h2; exact ⟨h1, h2⟩
      | cons i t ih =>
        intro hl m h1 h2
        refine ih (fun j hj => hl j (List.mem_cons_of_mem i hj)) _ ?_ ?_
        · dsimp only
          split
          · exact h1
          · split
            · exact h1
            · exact nodup_dictKeys_insert _ _ h1
        · dsimp only
          split
          · exact h2
          case isFalse hscore =>
            split
            · exact h2
            case isFalse hguard =>
              intro p hp
              rcases mem_dictInsert hp with hpm | rfl
              · exact h2 p hpm
              · refine ⟨?_, lt_of_not_le hscore, rfl, hl i (List.mem_cons_self i t)⟩
                by_cases hf : q.filt = []
                · rw [hf]
                  exact metadata_matches_nil _
                · rcases Bool.eq_false_or_eq_true
                    (metadata_matches (q.docs.getD i defaultChunk).metadata q.filt) with hmm | hmm
                  · exact hmm
                  · exact absurd ⟨hf, hmm⟩ hguard
    exact main _ (fun i hi => hi) [] List.nodup_nil (by intro p hp; cases hp)

lemma lexicalScoresRaw_length (q : RetrieveIn) :
    (lexicalScoresRaw q).length ≤ min q.bm25_k q.bm25Scores.length := by
  unfold lexicalScoresRaw
  dsimp only
  split
  case isFalse => simp
  case isTrue hk =>
    refine le_trans (foldl_length_le _ ?_ _ _) ?_
    · intro m b
      dsimp only
      split
      · exact Nat.le_succ _
      · split
        · exact Nat.le_succ _
        · exact length_dictInsert_le m b _
    · simp only [List.length_nil, Nat.zero_add]
      unfold topKIndices
      exact List.length_take_le _ _

lemma candidatesOf_eq (q : RetrieveIn) :
    candidatesOf q = dictKeys (normVector q) ++
      (dictKeys (normLexical q)).filter
        (fun k => decide (k ∉ dictKeys (normVector q))) := by
  unfold candidatesOf
  dsimp only
  split
  case isTrue h =>
    exfalso
    have h1 : dictKeys (normVector q) = [] := List.append_eq_nil.mp h.1 |>.1
    have h2 : dictKeys (vectorScoresRaw q) = [] := by
      rw [← dictKeys_normalize (vectorScoresRaw q)]
      exact h1
    have h3 : vectorScoresRaw q = [] := List.map_eq_nil_iff.mp h2
    exact h.2 h3
  case isFalse h => rfl

lemma vecKeys_subset_candidates (q : RetrieveIn) :
    dictKeys (vectorScoresRaw q) ⊆ candidatesOf q := by
  rw [candidatesOf_eq]
  intro k hk
  refine List.mem_append_left _ ?_
  rw [normVector, dictKeys_normalize]
  exact hk

lemma mem_candidates_cases {q : RetrieveIn} {i : Nat} (h : i ∈ candidatesOf q) :
    i ∈ dictKeys (vectorScoresRaw q) ∨ i ∈ dictKeys (lexicalScoresRaw q) := by
  rw [candidatesOf_eq] at h
  rcases List.mem_append.mp h with hv | hl
  · left
    rw [normVector, dictKeys_normalize] at hv
    exact hv
  · right
    rw [← dictKeys_normalize (lexicalScoresRaw q)]
    exact (List.mem_filter.mp hl).1

lemma backfillExtras_eq_nil (q : RetrieveIn) : backfillExtras q = [] := by
  unfold backfillExtras
  have hfil : (dictKeys (vectorScoresRaw q)).filter
      (fun idx => decide (idx ∉ candidatesOf q)) = [] := by
    rw [List.filter_eq_nil_iff]
    intro a ha
    simp only [decide_eq_true_eq, not_not]
    exact vecKeys_subset_candidates q ha
  rw [hfil]
  simp

lemma retrieveIndexed_eq (q : RetrieveIn) :
    retrieveIndexed q = (fusedSorted q).take q.top_n := by
  unfold retrieveIndexed
  dsimp only
  split
  · rw [backfillExtras_eq_nil, List.append_nil]
  · rfl

lemma insertDesc_perm {α : Type} (le : α → α → Bool) (x : α) (l : List α) :
    List.Perm (insertDesc le x l) (x :: l) := by
  induction l with
  | nil => exact List.Perm.refl _
  | cons y t ih =>
    unfold insertDesc
    split
    · exact List.Perm.refl _
    · exact List.Perm.trans (List.Perm.cons y ih) (List.Perm.swap x y t)

lemma stableSort_perm {α : Type} (le : α → α → Bool) (l : List α) :
    List.Perm (stableSort le l) l := by
  induction l with
  | nil => exact List.Perm.refl _
  | cons x t ih =>
    unfold stableSort
    exact List.Perm.trans (insertDesc_perm le x (stableSort le t)) (List.Perm.cons x ih)

lemma insertDesc_pairwise {α : Type} {le : α → α → Bool}
    (htrans : ∀ a b c, le a b = true → le b c = true → le a c = true)
    (htotal : ∀ a b, le a b = true ∨ le b a = true)
    (x : α) {l : List α} (h : l.Pairwise (fun a b => le a b = true)) :
    (insertDesc le x l).Pairwise (fun a b => le a b = true) := by
  induction l with
  | nil => simp [insertDesc]
  | cons y t ih =>
    obtain ⟨hy, ht⟩ := List.pairwise_cons.mp h
    unfold insertDesc
    split
    case isTrue hxy =>
      refine List.Pairwise.cons ?_ h
      intro z hz
      rcases List.mem_cons.mp hz with rfl | hz
      · exact hxy
      · exact htrans x y z hxy (hy z hz)
    case isFalse hxy =>
      have hyx : le y x = true := by
        rcases htotal x y with hh | hh
        · exact absurd hh hxy
        · exact hh
      refine List.Pairwise.cons ?_ (ih ht)
      intro z hz
      rcases List.mem_cons.mp ((insertDesc_perm le x t).mem_iff.mp hz) with rfl | hz
      · exact hyx
      · exact hy z hz

lemma stableSort_pairwise {α : Type} {le : α → α → Bool}
    (htrans : ∀ a b c, le a b = true → le b c = true → le a c = true)
    (htotal : ∀ a b, le a b = true ∨ le b a = true)
    (l : List α) :
    (stableSort le l).Pairwise (fun a b => le a b = true) := by
  induction l with
  | nil => exact List.Pairwise.nil
  | cons x t ih =>
    exact insertDesc_pairwise htrans htotal x ih

lemma pairwise_fusedSorted (q : RetrieveIn) :
    (fusedSorted q).Pairwise (fun a b => b.2.1 ≤ a.2.1) := by
  unfold fusedSorted
  have hs := @stableSort_pairwise _
    (fun a b : Nat × ℚ × List (String × Val) => decide (b.2.1 ≤ a.2.1))
    (fun a b c hab hbc => by
      simp only [decide_eq_true_eq] at hab hbc ⊢
      exact le_trans hbc hab)
    (fun a b => by
      simp only [decide_eq_true_eq]
      exact le_total b.2.1 a.2.1)
    ((candidatesOf q).map
      (fun idx => (idx, combinedScore q idx, enrichedMeta q idx (combinedScore q idx))))
  exact hs.imp (fun h => of_decide_eq_true h)

lemma mem_fusedSorted {q : RetrieveIn} {e : Nat × ℚ × List (String × Val)} :
    e ∈ fusedSorted q ↔
      ∃ i ∈ candidatesOf q,
        e = (i, combinedScore q i, enrichedMeta q i (combinedScore q i)) := by
  unfold fusedSorted
  rw [(stableSort_perm _ _).mem_iff, List.mem_map]
  constructor
  · rintro ⟨i, hi, rfl⟩
    exact ⟨i, hi, rfl⟩
  · rintro ⟨i, hi, rfl⟩
    exact ⟨i, hi, rfl⟩

lemma mem_retrieveIndexed {q : RetrieveIn} {e : Nat × ℚ × List (String × Val)}
    (h : e ∈ retrieveIndexed q) :
    ∃ i ∈ candidatesOf q,
      e = (i, combinedScore q i, enrichedMeta q i (combinedScore q i)) := by
  rw [retrieveIndexed_eq] at h
  exact mem_fusedSorted.mp (List.mem_of_mem_take h)

lemma pairwise_retrieveIndexed (q : RetrieveIn) :
    (retrieveIndexed q).Pairwise (fun a b => b.2.1 ≤ a.2.1) := by
  rw [retrieveIndexed_eq]
  exact (pairwise_fusedSorted q).sublist (List.take_sublist _ _)

lemma retrieve_restricted_sorted (q : RetrieveIn) (m : List (Nat × ℚ))
    (hc : ∀ i ∈ candidatesOf q,
      combinedScore q i = ((dictGet (normalize_scores m) i).getD 0)) :
    ((retrieveIndexed q).filter (fun e => decide (e.1 ∈ dictKeys m))).Pairwise
      (fun a b => (dictGet m b.1).getD 0 ≤ (dictGet m a.1).getD 0) := by
  have hp : ((retrieveIndexed q).filter
      (fun e => decide (e.1 ∈ dictKeys m))).Pairwise (fun a b => b.2.1 ≤ a.2.1) :=
    (pairwise_retrieveIndexed q).sublist (List.filter_sublist _)
  refine hp.imp_of_mem ?_
  intro a b ha hb hab
  have hma := List.mem_filter.mp ha
  have hmb := List.mem_filter.mp hb
  obtain ⟨ia, hia, rfl⟩ := mem_retrieveIndexed hma.1
  obtain ⟨ib, hib, rfl⟩ := mem_retrieveIndexed hmb.1
  simp only [decide_eq_true_eq] at hma hmb
  obtain ⟨va, hva⟩ := Option.isSome_iff_exists.mp (dictGet_isSome_of_mem_keys hma.2)
  obtain ⟨vb, hvb⟩ := Option.isSome_iff_exists.mp (dictGet_isSome_of_mem_keys hmb.2)
  have hca : combinedScore q ia = normFun m va := by
    rw [hc ia hia, dictGet_normalize, hva]
    rfl
  have hcb : combinedScore q ib = normFun m vb := by
    rw [hc ib hib, dictGet_normalize, hvb]
    rfl
  simp only at hab
  rw [hca, hcb] at hab
  rw [hva, hvb, Option.getD_some, Option.getD_some]
  exact normFun_reflect (dictGet_mem hva) (dictGet_mem hvb) hab

lemma topK_dominates (scores : List ℚ) (k : Nat) {i j : Nat}
    (hi : i ∈ topKIndices scores k) (hjr : j ∈ List.range scores.length)
    (hj : j ∉ topKIndices scores k) :
    scores.getD j 0 ≤ scores.getD i 0 := by
  unfold topKIndices at hi hj
  have hsorted : (stableSort (fun i j => decide (scores.getD j 0 ≤ scores.getD i 0))
      (List.range scores.length)).Pairwise
      (fun a b => decide (scores.getD b 0 ≤ scores.getD a 0) = true) :=
    stableSort_pairwise
      (fun a b c hab hbc => by
        simp only [decide_eq_true_eq] at hab hbc ⊢
        exact le_trans hbc hab)
      (fun a b => by
        simp only [decide_eq_true_eq]
        exact le_total (scores.getD b 0) (scores.getD a 0))
      (List.range scores.length)
  set s := stableSort (fun i j => decide (scores.getD j 0 ≤ scores.getD i 0))
    (List.range scores.length) with hs
  have hmem : j ∈ s := by
    rw [hs, (stableSort_perm _ _).mem_iff]
    exact hjr
  have hsplit : s.take k ++ s.drop k = s := List.take_append_drop k s
  have hjd : j ∈ s.drop k := by
    rcases List.mem_append.mp (by rw [hsplit]; exact hmem) with h | h
    · exact absurd h hj
    · exact h
  have hsorted2 : (s.take k ++ s.drop k).Pairwise
      (fun a b => decide (scores.getD b 0 ≤ scores.getD a 0) = true) := by
    rw [hsplit]
    exact hsorted
  exact of_decide_eq_true ((List.pairwise_append.mp hsorted2).2.2 i hi j hjd)

/-! ### Identifier-normaliser lemmas -/

lemma pyTruthy_ne_vNone {v : Val} (h : pyTruthy v = true) : v ≠ Val.vNone := by
  intro hv
  subst hv
  simp [pyTruthy] at h

lemma dictGet_eq_some_of_truthy {m : List (String × Val)} {k : String}
    (h : pyTruthy ((dictGet m k).getD Val.vNone) = true) :
    dictGet m k = some ((dictGet m k).getD Val.vNone) := by
  cases hm : dictGet m k with
  | none =>
    rw [hm] at h
    simp [pyTruthy] at h
  | some v => rfl

lemma resolveDocId_fst_ne_vNone (meta : List (String × Val)) (chunk : String) :
    (resolveDocId meta chunk).1 ≠ Val.vNone := by
  unfold resolveDocId
  simp only []
  by_cases h1 : pyTruthy ((dictGet meta "doc_id").getD Val.vNone) = true
  · rw [if_pos h1]
    exact pyTruthy_ne_vNone h1
  · rw [if_neg h1]
    simp

lemma resolveDocId_get_self (meta : List (String × Val)) (chunk : String) :
    dictGet (resolveDocId meta chunk).2 "doc_id" = some (resolveDocId meta chunk).1 := by
  unfold resolveDocId
  simp only []
  by_cases h1 : pyTruthy ((dictGet meta "doc_id").getD Val.vNone) = true
  · rw [if_pos h1]
    exact dictGet_eq_some_of_truthy h1
  · rw [if_neg h1]
    exact dictGet_insert_self _ _ _

lemma resolveDocId_get_other (meta : List (String × Val)) (chunk : String)
    {k : String} (h : k ≠ "doc_id") :
    dictGet (resolveDocId meta chunk).2 k = dictGet meta k := by
  unfold resolveDocId
  simp only []
  by_cases h1 : pyTruthy ((dictGet meta "doc_id").getD Val.vNone) = true
  · rw [if_pos h1]
  · rw [if_neg h1]
    exact dictGet_insert_other _ _ _ _ h

lemma ei_docId (md : List (String × Val)) (c : String) :
    dictGet (ensure_identifiers md c) "doc_id" = some (resolveDocId md c).1 := by
  unfold ensure_identifiers
  simp only []
  split <;> split <;>
    simp [dictGet_insert_other, dictGet_insert_self, resolveDocId_get_self,
      resolveDocId_get_other]

lemma ei_docLabel (md : List (String × Val)) (c : String) :
    dictGet (ensure_identifiers md c) "doc_label" =
      some (if pyTruthy ((dictGet md "doc_label").getD Val.vNone) then
        (dictGet md "doc_label").getD Val.vNone
      else (resolveDocId md c).1) := by
  unfold ensure_identifiers
  simp only []
  split
  case isTrue h1 =>
    have h1' : pyTruthy ((dictGet md "doc_label").getD Val.vNone) = true := by
      rwa [resolveDocId_get_other md c (by decide)] at h1
    split <;>
      simp [dictGet_insert_other, dictGet_insert_self, resolveDocId_get_other, h1']
  case isFalse h1 =>
    have h1' : ¬ pyTruthy ((dictGet md "doc_label").getD Val.vNone) = true := by
      rwa [resolveDocId_get_other md c (by decide)] at h1
    split <;>
      simp [dictGet_insert_other, dictGet_insert_self, resolveDocId_get_other, h1']

lemma ei_page (md : List (String × Val)) (c : String) :
    dictGet (ensure_identifiers md c) "page" =
      some ((dictGet md "page").getD (Val.vStr "?")) := by
  unfold ensure_identifiers
  simp only []
  split <;> split <;>
    simp [dictGet_insert_other, dictGet_insert_self, resolveDocId_get_other]

lemma ei_chunkIndex (md : List (String × Val)) (c : String) :
    dictGet (ensure_identifiers md c) "chunk_index" =
      some (resolveChunkIndex ((dictGet md "chunk_index").getD Val.vNone)) := by
  unfold ensure_identifiers
  simp only []
  split <;> split <;>
    simp [dictGet_insert_other, dictGet_insert_self, resolveDocId_get_other]

lemma ei_chunkId (md : List (String × Val)) (c : String) :
    dictGet (ensure_identifiers md c) "chunk_id" =
      some (if pyTruthy ((dictGet md "chunk_id").getD Val.vNone) then
        (dictGet md "chunk_id").getD Val.vNone
      else
        Val.vStr (pyStr (resolveDocId md c).1 ++ ":" ++
          pyStr ((dictGet md "page").getD (Val.vStr "?")) ++ ":" ++
          pyStr (resolveChunkIndex ((dictGet md "chunk_index").getD Val.vNone)))) := by
  unfold ensure_identifiers
  simp only []
  split
  all_goals
    split
  case isTrue.isTrue hc =>
    have hc' : pyTruthy ((dictGet md "chunk_id").getD Val.vNone) = true := by
      simpa [dictGet_insert_other, resolveDocId_get_other] using hc
    rw [if_pos hc']
    simp [dictGet_insert_other, resolveDocId_get_other]
    exact dictGet_eq_some_of_truthy hc'
  case isTrue.isFalse hc =>
    have hc' : ¬ pyTruthy ((dictGet md "chunk_id").getD Val.vNone) = true := by
      simpa [dictGet_insert_other, resolveDocId_get_other] using hc
    rw [if_neg hc']
    simp [dictGet_insert_other, dictGet_insert_self, resolveDocId_get_other]
  case isFalse.isTrue hc =>
    have hc' : pyTruthy ((dictGet md "chunk_id").getD Val.vNone) = true := by
      simpa [dictGet_insert_other, resolveDocId_get_other] using hc
    rw [if_pos hc']
    simp [dictGet_insert_other, resolveDocId_get_other]
    exact dictGet_eq_some_of_truthy hc'
  case isFalse.isFalse hc =>
    have hc' : ¬ pyTruthy ((dictGet md "chunk_id").getD Val.vNone) = true := by
      simpa [dictGet_insert_other, resolveDocId_get_other] using hc
    rw [if_neg hc']
    simp [dictGet_insert_other, dictGet_insert_self, resolveDocId_get_other]

/-! ### Claim theorems -/

/-- Claim C10: `normalize_scores` returns a mapping whose key set is exactly
the key set of its input; consequently in every retrieve call the candidate
set contains every key of the raw vector score map, the backfill pool of
not-yet-included vector positions is empty, and backfill never appends any
result — the returned list is always the sorted fused list truncated to
`top_n`. -/
theorem C10_normalize_keys_backfill_dead :
    (∀ m : List (Nat × ℚ), dictKeys (normalize_scores m) = dictKeys m) ∧
      ∀ q : RetrieveIn,
        dictKeys (vectorScoresRaw q) ⊆ candidatesOf q ∧
          backfillExtras q = [] ∧
          retrieveIndexed q = (fusedSorted q).take q.top_n :=
  ⟨dictKeys_normalize, fun q =>
    ⟨vecKeys_subset_candidates q, backfillExtras_eq_nil q, retrieveIndexed_eq q⟩⟩

/-- Claim C6 (backfill guarantee): whenever the raw vector score map has at
least `top_n` entries, the returned list has exactly `top_n` entries.  The
claim's further proviso "the union of the normalized vector and lexical
candidate sets has fewer than `top_n` entries" is unsatisfiable on this code
(normalisation preserves key sets, so the union always contains every raw
vector position); the theorem proves the guarantee with that unsatisfiable
conjunct dropped, a strictly stronger statement that implies the claim. -/
theorem C6_backfill_guarantee (q : RetrieveIn)
    (h : q.top_n ≤ (vectorScoresRaw q).length) :
    (retrieveIndexed q).length = q.top_n := by
  rw [retrieveIndexed_eq, List.length_take]
  refine Nat.min_eq_left ?_
  have h1 : (fusedSorted q).length = (candidatesOf q).length := by
    unfold fusedSorted
    rw [(stableSort_perm _ _).length_eq, List.length_map]
  rw [h1, candidatesOf_eq, List.length_append]
  have h2 : (dictKeys (normVector q)).length = (vectorScoresRaw q).length := by
    rw [normVector, dictKeys_normalize, dictKeys, List.length_map]
  omega

/-- Witness for C6 at a concrete input: a one-chunk corpus with one dense
result and `top_n = 1` returns exactly one row. -/
theorem C6_backfill_guarantee_witness :
    (retrieveIndexed
      { docs := [⟨"t", []⟩], denseResults := [(1, 0)], bm25Scores := [],
        filt := [], top_n := 1, bm25_k := 40, alpha := 13/20 }).length = 1 :=
  C6_backfill_guarantee _ (by decide)

/-- Claim C4, amended: every candidate returned under a `metadata_filter`
comes from a chunk whose STORED metadata satisfies every filter key by exact
equality — no chunk violating the filter contributes a candidate.  (The
claim as frozen asserts this of the RETURNED metadata; that fails because
score enrichment and identifier synthesis may rewrite filtered keys — see
the counterexample.) -/
theorem C4_filter_conjunction_amended (q : RetrieveIn) :
    (retrieveIndexed q).all
      (fun e => metadata_matches (q.docs.getD e.1 defaultChunk).metadata q.filt) = true := by
  rw [List.all_eq_true]
  intro e he
  obtain ⟨i, hi, rfl⟩ := mem_retrieveIndexed he
  rcases mem_candidates_cases hi with hv | hl
  · obtain ⟨p, hp, hpk⟩ := List.mem_map.mp hv
    have hmatch := (vectorScoresRaw_inv q).2 p hp
    rw [hpk] at hmatch
    exact hmatch
  · obtain ⟨p, hp, hpk⟩ := List.mem_map.mp hl
    have hmatch := ((lexicalScoresRaw_inv q).2 p hp).1
    rw [hpk] at hmatch
    exact hmatch


/-- Claim C4, counterexample: in `filterScenario` the only chunk stores
`chunk_index = "5"` (a string) and the filter requires exactly that value;
the chunk passes the filter and is returned, but identifier synthesis
rewrites `chunk_index` to the integer `5` in the returned metadata, so the
returned metadata does NOT equal the filter's value on the filter key —
refuting the claim as stated (which asserts equality on the RETURNED
candidates' metadata). -/
theorem C4_filter_conjunction_counterexample :
    (retrieveIndexed filterScenario).all
      (fun e => metadata_matches e.2.2 filterScenario.filt) = false := by
  decide

/-- Claim C2: the `normalize_scores` contract — the empty map yields the
empty map; a uniform non-empty map sends every key to exactly `1`; otherwise
every value becomes `(v - min) / (max - min)`; all outputs lie in `[0, 1]`;
and any key carrying the maximum raw score maps to exactly `1`. -/
theorem C2_normalize_contract (m : List (Nat × ℚ)) :
    normalize_scores ([] : List (Nat × ℚ)) = [] ∧
      (maxVal m = minVal m → normalize_scores m = m.map (fun p => (p.1, 1))) ∧
      (maxVal m ≠ minVal m →
        normalize_scores m =
          m.map (fun p => (p.1, (p.2 - minVal m) / (maxVal m - minVal m)))) ∧
      (normalize_scores m).all (fun p => decide (0 ≤ p.2 ∧ p.2 ≤ 1)) = true ∧
      (∀ k v, dictGet m k = some v → v = maxVal m →
        dictGet (normalize_scores m) k = some 1) := by
  refine ⟨rfl, ?_, ?_, ?_, ?_⟩
  · intro h
    rw [normalize_scores_eq_map]
    refine List.map_congr_left ?_
    intro p _
    simp [normFun, h]
  · intro h
    rw [normalize_scores_eq_map]
    refine List.map_congr_left ?_
    intro p _
    simp [normFun, h]
  · rw [List.all_eq_true]
    intro p hp
    rw [normalize_scores_eq_map] at hp
    obtain ⟨a, ha, rfl⟩ := List.mem_map.mp hp
    have ha' : (a.1, a.2) ∈ m := by
      rw [Prod.mk.eta]
      exact ha
    simp only [decide_eq_true_eq]
    exact ⟨normFun_nonneg ha', normFun_le_one ha'⟩
  · intro k v hkv hvmax
    rw [dictGet_normalize, hkv]
    subst hvmax
    by_cases hc : maxVal m = minVal m
    · simp [normFun, hc]
    · rw [Option.map_some', normFun_max_eq_one hc]

/-- Witness for C2 at concrete inputs: on `{0 ↦ 3, 1 ↦ 5}` the maximum key
normalises to exactly `1`, and the uniform map `{0 ↦ 2, 1 ↦ 2}` normalises
to all-`1`. -/
theorem C2_normalize_contract_witness :
    dictGet (normalize_scores [(0, 3), (1, 5)]) 1 = some 1 ∧
      normalize_scores [(0, 2), (1, 2)] = [(0, 1), (1, 1)] := by
  refine ⟨(C2_normalize_contract [(0, 3), (1, 5)]).2.2.2.2 1 5 (by decide) (by decide), ?_⟩
  have h := (C2_normalize_contract [(0, 2), (1, 2)]).2.1 (by decide)
  rw [h]
  decide



/-- Claim C5: the lexical search step selects at most `bm25_k` positions by
raw BM25 score and excludes every non-positive score: the raw lexical map has
at most `bm25_k` entries; every entry's score is strictly positive and equals
the raw BM25 score at its position; every entry's position is among the
top-`min(bm25_k, n)` positions; and every selected top position's raw score
dominates every unselected position's raw score. -/
theorem C5_lexical_topk_positive (q : RetrieveIn) :
    (lexicalScoresRaw q).length ≤ q.bm25_k ∧
      (lexicalScoresRaw q).all (fun p => decide (0 < p.2)) = true ∧
      (lexicalScoresRaw q).all (fun p =>
        decide (p.1 ∈ topKIndices q.bm25Scores (min q.bm25_k q.bm25Scores.length) ∧
          p.2 = q.bm25Scores.getD p.1 0)) = true ∧
      (topKIndices q.bm25Scores (min q.bm25_k q.bm25Scores.length)).all (fun i =>
        ((List.range q.bm25Scores.length).filter (fun j =>
          decide (j ∉ topKIndices q.bm25Scores (min q.bm25_k q.bm25Scores.length)))).all
          (fun j => decide (q.bm25Scores.getD j 0 ≤ q.bm25Scores.getD i 0))) = true := by
  refine ⟨le_trans (lexicalScoresRaw_length q) (Nat.min_le_left _ _), ?_, ?_, ?_⟩
  · rw [List.all_eq_true]
    intro p hp
    exact decide_eq_true ((lexicalScoresRaw_inv q).2 p hp).2.1
  · rw [List.all_eq_true]
    intro p hp
    have h := (lexicalScoresRaw_inv q).2 p hp
    exact decide_eq_true ⟨h.2.2.2, h.2.2.1⟩
  · rw [List.all_eq_true]
    intro i hi
    rw [List.all_eq_true]
    intro j hj
    have hjm := List.mem_filter.mp hj
    exact decide_eq_true
      (topK_dominates q.bm25Scores _ hi hjm.1 (of_decide_eq_true hjm.2))

/-- Claim C3 (fusion weight extremes): with `alpha = 1` the returned list,
restricted to candidates having a vector score, is ordered by non-increasing
raw vector score (the pure dense ranking order); with `alpha = 0` the
restriction to candidates having a lexical score is ordered by
non-increasing raw BM25 score (the pure lexical ranking order). -/
theorem C3_fusion_weight_extremes (q : RetrieveIn) :
    ((retrieveIndexed { q with alpha := 1 }).filter
        (fun e => decide (e.1 ∈ dictKeys (vectorScoresRaw { q with alpha := 1 })))).Pairwise
      (fun a b => (dictGet (vectorScoresRaw { q with alpha := 1 }) b.1).getD 0 ≤
        (dictGet (vectorScoresRaw { q with alpha := 1 }) a.1).getD 0) ∧
    ((retrieveIndexed { q with alpha := 0 }).filter
        (fun e => decide (e.1 ∈ dictKeys (lexicalScoresRaw { q with alpha := 0 })))).Pairwise
      (fun a b => (dictGet (lexicalScoresRaw { q with alpha := 0 }) b.1).getD 0 ≤
        (dictGet (lexicalScoresRaw { q with alpha := 0 }) a.1).getD 0) := by
  constructor
  · refine retrieve_restricted_sorted _ _ ?_
    intro i _
    simp only [combinedScore, normVector]
    ring
  · refine retrieve_restricted_sorted _ _ ?_
    intro i _
    simp only [combinedScore, normLexical]
    ring

lemma resolveChunkIndex_int {md : List (String × Val)} (h : ciShapeOk md = true) :
    isIntVal (resolveChunkIndex ((dictGet md "chunk_index").getD Val.vNone)) = true := by
  unfold ciShapeOk at h
  unfold resolveChunkIndex
  cases hv : (dictGet md "chunk_index").getD Val.vNone with
  | vStr s =>
    simp only []
    cases hp : pyParseInt s <;> simp [isIntVal]
  | vInt n => simp [isIntVal]
  | vRat q =>
    rw [hv] at h
    simp at h
  | vNone => simp [isIntVal]

lemma resolveChunkIndex_passthrough {md : List (String × Val)}
    (h : ciShapeOk md = false) :
    resolveChunkIndex ((dictGet md "chunk_index").getD Val.vNone) =
      (dictGet md "chunk_index").getD Val.vNone := by
  unfold ciShapeOk at h
  cases hv : (dictGet md "chunk_index").getD Val.vNone with
  | vStr s =>
    rw [hv] at h
    simp at h
  | vInt n =>
    rw [hv] at h
    simp at h
  | vRat q => simp [resolveChunkIndex]
  | vNone =>
    rw [hv] at h
    simp at h

/-- Claim C9 (amended): the identifier normaliser is total and, for EVERY
metadata mapping and chunk text, returns a mapping with non-null `doc_id`,
non-null `doc_label`, a `page` defaulting to the placeholder `"?"`, and a
non-null `chunk_id` (synthesised as `"{doc_id}:{page}:{chunk_index}"` from
the result's own fields when the stored one is falsy).  The `chunk_index`
result is an integer (integer-coerced from a numeric string, `0` if absent
or unparsable) provided the stored `chunk_index` is absent, `None`, an
integer, or a string — that proviso scopes only this conjunct; a stored
non-string non-integer value (e.g. a float) is instead passed through
unchanged, refuting the frozen claim's "integer `chunk_index`" over every
mapping (see the counterexample). -/
theorem C9_identifier_totality_amended (metadata : List (String × Val)) (chunk : String) :
    ((dictGet (ensure_identifiers metadata chunk) "doc_id").getD Val.vNone ≠ Val.vNone) ∧
      ((dictGet (ensure_identifiers metadata chunk) "doc_label").getD Val.vNone ≠ Val.vNone) ∧
      dictGet (ensure_identifiers metadata chunk) "page" =
        some ((dictGet metadata "page").getD (Val.vStr "?")) ∧
      (ciShapeOk metadata = true →
        isIntVal ((dictGet (ensure_identifiers metadata chunk) "chunk_index").getD Val.vNone)
          = true) ∧
      (ciShapeOk metadata = false →
        dictGet (ensure_identifiers metadata chunk) "chunk_index" =
          some ((dictGet metadata "chunk_index").getD Val.vNone)) ∧
      ((dictGet (ensure_identifiers metadata chunk) "chunk_id").getD Val.vNone ≠ Val.vNone) ∧
      ((dictGet (ensure_identifiers metadata chunk) "chunk_id").getD Val.vNone =
        if pyTruthy ((dictGet metadata "chunk_id").getD Val.vNone) then
          (dictGet metadata "chunk_id").getD Val.vNone
        else
          Val.vStr
            (pyStr ((dictGet (ensure_identifiers metadata chunk) "doc_id").getD Val.vNone)
              ++ ":" ++
              pyStr ((dictGet (ensure_identifiers metadata chunk) "page").getD Val.vNone)
              ++ ":" ++
              pyStr ((dictGet (ensure_identifiers metadata chunk) "chunk_index").getD
                Val.vNone))) := by
  refine ⟨?_, ?_, ei_page metadata chunk, ?_, ?_, ?_, ?_⟩
  · rw [ei_docId]
    simpa using resolveDocId_fst_ne_vNone metadata chunk
  · rw [ei_docLabel]
    simp only [Option.getD_some]
    split
    case isTrue h2 => exact pyTruthy_ne_vNone h2
    case isFalse h2 => exact resolveDocId_fst_ne_vNone metadata chunk
  · intro h
    rw [ei_chunkIndex]
    simpa using resolveChunkIndex_int h
  · intro h
    rw [ei_chunkIndex, resolveChunkIndex_passthrough h]
  · rw [ei_chunkId]
    simp only [Option.getD_some]
    split
    case isTrue h2 => exact pyTruthy_ne_vNone h2
    case isFalse h2 => simp
  · rw [ei_chunkId, ei_docId, ei_page, ei_chunkIndex]
    simp only [Option.getD_some]

/-- Witness for C9 at a concrete input: the empty metadata mapping and chunk
text `"hello"` yield a non-null `doc_id` and — its stored `chunk_index`
being absent — an integer `chunk_index`. -/
theorem C9_identifier_totality_witness :
    (dictGet (ensure_identifiers [] "hello") "doc_id").getD Val.vNone ≠ Val.vNone ∧
      isIntVal ((dictGet (ensure_identifiers [] "hello") "chunk_index").getD Val.vNone)
        = true := by
  have h := C9_identifier_totality_amended [] "hello"
  exact ⟨h.1, h.2.2.2.1 (by decide)⟩

/-- Claim C9, counterexample: with the stored `chunk_index` being the float
`5/2`, `_ensure_identifiers` passes it through unchanged, so the returned
`chunk_index` is NOT an integer — refuting the claim's "integer
`chunk_index`" over every metadata mapping. -/
theorem C9_identifier_totality_counterexample :
    isIntVal ((dictGet (ensure_identifiers [("chunk_index", Val.vRat (5/2))] "t")
      "chunk_index").getD Val.vNone) = false := by
  decide

/-- Claim C7 (evaluation at the failing input): a corpus of two stored
embeddings — a string that is not valid JSON, and the float list `[1, 0]` —
builds an index over the single valid vector but reports `bad_count = 0`:
the unparsable JSON string is skipped by the bare `continue` at
`enhanced_ingest.py:192` WITHOUT being counted, contradicting the claim (and
the build's own summary line, which reports `bad_count` as the number of
skipped invalid embeddings) that non-convertible entries are counted as
bad. -/
theorem C7_build_badcount_eval :
    EnhancedIngest.build_faiss_index_from_db
      [EnhancedIngest.RawEmb.jsonStr none, EnhancedIngest.RawEmb.floats [1, 0]] =
      (some [[1, 0]], 0) := by
  decide

/-- Claim C8, counterexample: with the documents file, dense index and
lexical index present (and a valid BM25 payload) but the index-metadata file
ABSENT, construction succeeds — `_load_meta` silently substitutes `{}` —
refuting the claim that the load fails when any of the FOUR persisted files
is absent. -/
theorem C8_load_counterexample :
    Load.hybridRetrieverInit
      { vectorDbPath := "vector_db.json", faissPath := "vector_index.faiss",
        bm25Path := "bm25_index.pkl", metaPath := "index_meta.json",
        vectorDbExists := true, faissExists := true, bm25Exists := true,
        metaExists := false, bm25HasPayload := true } = Except.ok () := rfl

/-- Claim C8 (amended): construction fails, reporting the first missing path
in check order, precisely when one of the THREE required artifacts
(documents, dense index, lexical index) is absent; the index-metadata file
is optional — its absence never fails the load (an empty metadata record is
substituted).  No instance is produced from a partial set of the three
required artifacts. -/
theorem C8_load_requires_three (env : Load.LoadEnv)
    (hp : env.bm25HasPayload = true) :
    Load.hybridRetrieverInit env =
      (match Load.missingRequiredPaths env with
        | [] => Except.ok ()
        | p :: _ => Except.error (Load.LoadError.missingArtifact p)) := by
  obtain ⟨vp, fp, bp, mp, ve, fe, be, me, pl⟩ := env
  simp only at hp
  subst hp
  cases ve <;> cases fe <;> cases be <;>
    simp [Load.hybridRetrieverInit, Load.missingRequiredPaths]

/-- Witness for C8 at a concrete input: with only the documents file absent,
the load fails with exactly that path. -/
theorem C8_load_requires_three_witness :
    Load.hybridRetrieverInit
      { vectorDbPath := "a", faissPath := "b", bm25Path := "c", metaPath := "d",
        vectorDbExists := false, faissExists := true, bm25Exists := true,
        metaExists := true, bm25HasPayload := true } =
      Except.error (Load.LoadError.missingArtifact "a") :=
  C8_load_requires_three
    { vectorDbPath := "a", faissPath := "b", bm25Path := "c", metaPath := "d",
      vectorDbExists := false, faissExists := true, bm25Exists := true,
      metaExists := true, bm25HasPayload := true } rfl

/-- Claim C1: the spec's worked scenario — normalised vector map
`{0 ↦ 1, 1 ↦ 1/2, 2 ↦ 0}`, normalised lexical map `{0 ↦ 0, 1 ↦ 1}` (no
entry for position 2), combined scores `{0 ↦ 1/2, 1 ↦ 3/4, 2 ↦ 0}` via the
convex combination realised by `combinedScore`, and the returned list orders
position 1 (text `"t1"`, score `3/4`) before position 0 (text `"t0"`, score
`1/2`). -/
theorem C1_worked_scenario :
    normVector scenario1 = [(0, 1), (1, 1/2), (2, 0)] ∧
      normLexical scenario1 = [(1, 1), (0, 0)] ∧
      dictGet (normLexical scenario1) 0 = some 0 ∧
      dictGet (normLexical scenario1) 1 = some 1 ∧
      dictGet (normLexical scenario1) 2 = none ∧
      (candidatesOf scenario1).map (fun i => (i, combinedScore scenario1 i)) =
        [(0, 1/2), (1, 3/4), (2, 0)] ∧
      (retrieveIndexed scenario1).map (fun e => (e.1, e.2.1)) =
        [(1, 3/4), (0, 1/2)] ∧
      (retrieve scenario1).map (fun r => r.1) = ["t1", "t0"] := by
  decide

end Ragmilo
